import Mathlib

/-
Verification of the hongdle constraint-accumulation engine.

The definitions below are a shallow embedding of the repository's Python
sources:
  * word_processor.py  (WordProcessor.decompose_hangul and its tables)
  * game_engine.py     (GameEngine: reset_game, add_turn, _update_conditions,
                        _find_candidates, _check_word_conditions)
  * word_database.py   (get_words_by_length, modelled abstractly as a
                        length-indexed word list)

Python dicts are modelled as insertion-ordered association lists
(update-in-place for an existing key, append for a new key), Python sets as
insertion-ordered duplicate-free lists, and a Python function that can raise
an exception returns an Option (none = an exception escaped) together with
the mutations that had already happened at the raise point.
-/

abbrev Jamo := Char

/-! ## word_processor.py : tables of WordProcessor.__init__ -/

/-- `self.CHOSUNG` -/
def CHOSUNG : List Jamo :=
  ['ㄱ', 'ㄲ', 'ㄴ', 'ㄷ', 'ㄸ', 'ㄹ', 'ㅁ', 'ㅂ', 'ㅃ', 'ㅅ', 'ㅆ', 'ㅇ', 'ㅈ', 'ㅉ', 'ㅊ', 'ㅋ', 'ㅌ', 'ㅍ', 'ㅎ']

/-- `self.JUNGSUNG` -/
def JUNGSUNG : List Jamo :=
  ['ㅏ', 'ㅐ', 'ㅑ', 'ㅒ', 'ㅓ', 'ㅔ', 'ㅕ', 'ㅖ', 'ㅗ', 'ㅘ', 'ㅙ', 'ㅚ', 'ㅛ', 'ㅜ', 'ㅝ', 'ㅞ', 'ㅟ', 'ㅠ', 'ㅡ', 'ㅢ', 'ㅣ']

/-- `self.JONGSUNG`; the Python list's element 0 is the empty string `''`
(no final consonant), modelled as `none`. -/
def JONGSUNG : List (Option Jamo) :=
  [none, some 'ㄱ', some 'ㄲ', some 'ㄳ', some 'ㄴ', some 'ㄵ', some 'ㄶ', some 'ㄷ',
   some 'ㄹ', some 'ㄺ', some 'ㄻ', some 'ㄼ', some 'ㄽ', some 'ㄾ', some 'ㄿ', some 'ㅀ',
   some 'ㅁ', some 'ㅂ', some 'ㅄ', some 'ㅅ', some 'ㅆ', some 'ㅇ', some 'ㅈ', some 'ㅊ',
   some 'ㅋ', some 'ㅌ', some 'ㅍ', some 'ㅎ']

/-- `self.COMPLEX_VOWELS` -/
def COMPLEX_VOWELS : List Jamo := ['ㅐ', 'ㅔ', 'ㅒ', 'ㅖ', 'ㅘ', 'ㅙ', 'ㅚ', 'ㅝ', 'ㅞ', 'ㅟ', 'ㅢ']

/-- `self.DECOMPOSE_RULES` -/
def DECOMPOSE_RULES : List (Jamo × List Jamo) :=
  [('ㅐ', ['ㅏ', 'ㅣ']), ('ㅔ', ['ㅓ', 'ㅣ']), ('ㅒ', ['ㅑ', 'ㅣ']), ('ㅖ', ['ㅕ', 'ㅣ']),
   ('ㅘ', ['ㅗ', 'ㅏ']), ('ㅙ', ['ㅗ', 'ㅏ', 'ㅣ']), ('ㅚ', ['ㅗ', 'ㅣ']), ('ㅝ', ['ㅜ', 'ㅓ']),
   ('ㅞ', ['ㅜ', 'ㅓ', 'ㅣ']), ('ㅟ', ['ㅜ', 'ㅣ']), ('ㅢ', ['ㅡ', 'ㅣ'])]

/-- `self.DOUBLE_CONSONANTS` -/
def DOUBLE_CONSONANTS : List Jamo := ['ㄲ', 'ㄸ', 'ㅃ', 'ㅆ', 'ㅉ']

/-- `self.DOUBLE_CONSONANT_RULES` -/
def DOUBLE_CONSONANT_RULES : List (Jamo × List Jamo) :=
  [('ㄲ', ['ㄱ', 'ㄱ']), ('ㄸ', ['ㄷ', 'ㄷ']), ('ㅃ', ['ㅂ', 'ㅂ']), ('ㅆ', ['ㅅ', 'ㅅ']), ('ㅉ', ['ㅈ', 'ㅈ'])]

/-- `self.COMPLEX_FINALS` -/
def COMPLEX_FINALS : List Jamo := ['ㄳ', 'ㄵ', 'ㄶ', 'ㄺ', 'ㄻ', 'ㄼ', 'ㄽ', 'ㄾ', 'ㄿ', 'ㅀ', 'ㅄ']

/-- `self.COMPLEX_FINAL_RULES` -/
def COMPLEX_FINAL_RULES : List (Jamo × List Jamo) :=
  [('ㄳ', ['ㄱ', 'ㅅ']), ('ㄵ', ['ㄴ', 'ㅈ']), ('ㄶ', ['ㄴ', 'ㅎ']), ('ㄺ', ['ㄹ', 'ㄱ']),
   ('ㄻ', ['ㄹ', 'ㅁ']), ('ㄼ', ['ㄹ', 'ㅂ']), ('ㄽ', ['ㄹ', 'ㅅ']), ('ㄾ', ['ㄹ', 'ㅌ']),
   ('ㄿ', ['ㄹ', 'ㅍ']), ('ㅀ', ['ㄹ', 'ㅎ']), ('ㅄ', ['ㅂ', 'ㅅ'])]

/-! ## word_processor.py : decompose_hangul

A Python list index `xs[i]` and a dict index `d[k]` raise when the key is
absent, so each slot is modelled in `Option`; `none` anywhere means
`decompose_hangul` would have raised. -/

/-- Initial-consonant slot: `CHOSUNG[cho_idx]`, expanded through
`DOUBLE_CONSONANT_RULES` when it is a double consonant. -/
def initial_atoms (cho_idx : Nat) : Option (List Jamo) :=
  (CHOSUNG.get? cho_idx).bind fun chosung =>
    if chosung ∈ DOUBLE_CONSONANTS then DOUBLE_CONSONANT_RULES.lookup chosung
    else some [chosung]

/-- Vowel slot: `JUNGSUNG[jung_idx]`, expanded through `DECOMPOSE_RULES`
when it is a complex vowel. -/
def vowel_atoms (jung_idx : Nat) : Option (List Jamo) :=
  (JUNGSUNG.get? jung_idx).bind fun vowel =>
    if vowel ∈ COMPLEX_VOWELS then DECOMPOSE_RULES.lookup vowel
    else some [vowel]

/-- Final-consonant slot: only read when `jong_idx > 0`; expanded through
`DOUBLE_CONSONANT_RULES` or `COMPLEX_FINAL_RULES`. -/
def final_atoms (jong_idx : Nat) : Option (List Jamo) :=
  if jong_idx > 0 then
    ((JONGSUNG.get? jong_idx).bind id).bind fun jongsung =>
      if jongsung ∈ DOUBLE_CONSONANTS then DOUBLE_CONSONANT_RULES.lookup jongsung
      else if jongsung ∈ COMPLEX_FINALS then COMPLEX_FINAL_RULES.lookup jongsung
      else some [jongsung]
  else some []

/-- One iteration of the `for char in word` loop of `decompose_hangul`:
a character in the Hangul syllable range `'가' <= char <= '힣'` is split by the
standard code-point arithmetic, anything else contributes no atoms. -/
def decompose_char (ch : Char) : Option (List Jamo) :=
  if '가' ≤ ch ∧ ch ≤ '힣' then
    let code := ch.toNat - '가'.toNat
    let jong_idx := code % 28
    let jung_idx := ((code - jong_idx) / 28) % 21
    let cho_idx := (((code - jong_idx) - jung_idx * 28) / 28) / 21
    (initial_atoms cho_idx).bind fun ia =>
      (vowel_atoms jung_idx).bind fun va =>
        (final_atoms jong_idx).bind fun fa => some (ia ++ va ++ fa)
  else some []

/-- `WordProcessor.decompose_hangul`, with a possible escaped exception
modelled as `none`. -/
def decompose_hangul_opt (word : String) : Option (List Jamo) :=
  word.data.foldl (fun acc ch => acc.bind fun r => (decompose_char ch).map (r ++ ·)) (some [])

/-- `WordProcessor.decompose_hangul` as the total function it is proved to be
(`decompose_hangul_opt` never returns `none`, see `decompose_char_isSome`). -/
def decompose_hangul (word : String) : List Jamo := (decompose_hangul_opt word).getD []

/-! ### Totality of the decomposer -/

lemma initial_atoms_isSome : ∀ n < 19, (initial_atoms n).isSome := by decide

lemma vowel_atoms_isSome : ∀ n < 21, (vowel_atoms n).isSome := by decide

lemma final_atoms_isSome : ∀ n < 28, (final_atoms n).isSome := by decide

lemma decompose_char_isSome (ch : Char) : (decompose_char ch).isSome := by
  unfold decompose_char
  split
  case isFalse => rfl
  case isTrue h =>
    obtain ⟨h1, h2⟩ := h
    simp only [Char.le_def] at h1 h2
    have hcode : ch.toNat - '가'.toNat ≤ 11171 := by
      have hh : ch.toNat ≤ 55203 := h2
      have hg : '가'.toNat = 44032 := rfl
      omega
    set code := ch.toNat - '가'.toNat with hc
    have hjong : code % 28 < 28 := Nat.mod_lt _ (by norm_num)
    have hjung : ((code - code % 28) / 28) % 21 < 21 := Nat.mod_lt _ (by norm_num)
    have hcho : (((code - code % 28) - (((code - code % 28) / 28) % 21) * 28) / 28) / 21 < 19 := by
      have hle : ((code - code % 28) - (((code - code % 28) / 28) % 21) * 28) ≤ 11171 := by omega
      have h28 : ((code - code % 28) - (((code - code % 28) / 28) % 21) * 28) / 28 ≤ 11171 / 28 :=
        Nat.div_le_div_right hle
      have h21 : (((code - code % 28) - (((code - code % 28) / 28) % 21) * 28) / 28) / 21 ≤ (11171 / 28) / 21 :=
        Nat.div_le_div_right h28
      omega
    obtain ⟨ia, hia⟩ := Option.isSome_iff_exists.mp (initial_atoms_isSome _ hcho)
    obtain ⟨va, hva⟩ := Option.isSome_iff_exists.mp (vowel_atoms_isSome _ hjung)
    obtain ⟨fa, hfa⟩ := Option.isSome_iff_exists.mp (final_atoms_isSome _ hjong)
    simp only [hia, hva, hfa, Option.bind_some]
    rfl

lemma decompose_foldl_isSome (l : List Char) :
    ∀ acc : Option (List Jamo), acc.isSome →
      (l.foldl (fun acc ch => acc.bind fun r => (decompose_char ch).map (r ++ ·)) acc).isSome := by
  induction l with
  | nil => intro acc h; exact h
  | cons ch rest ih =>
    intro acc h
    obtain ⟨r, hr⟩ := Option.isSome_iff_exists.mp h
    obtain ⟨d, hd⟩ := Option.isSome_iff_exists.mp (decompose_char_isSome ch)
    apply ih
    simp [List.foldl, hr, hd]

lemma decompose_hangul_opt_isSome (word : String) : (decompose_hangul_opt word).isSome :=
  decompose_foldl_isSome word.data (some []) rfl

/-! ## Python dict / set model

A Python dict is an insertion-ordered association list: assigning to an
existing key rewrites that entry in place, assigning to a fresh key appends.
A Python set is a duplicate-free list with insert-if-absent. -/

/-- Dict lookup `m[k]` / `m.get(k)`. -/
def alGet {α β : Type} [DecidableEq α] (m : List (α × β)) (k : α) : Option β :=
  match m with
  | [] => none
  | p :: rest => if p.1 = k then some p.2 else alGet rest k

/-- Dict assignment `m[k] = v`. -/
def alSet {α β : Type} [DecidableEq α] (m : List (α × β)) (k : α) (v : β) : List (α × β) :=
  match m with
  | [] => [(k, v)]
  | p :: rest => if p.1 = k then (k, v) :: rest else p :: alSet rest k v

/-- Set insertion `s.add(a)`. -/
def sInsert {α : Type} [DecidableEq α] (s : List α) (a : α) : List α :=
  if a ∈ s then s else s ++ [a]

/-! ## game_engine.py : the Constraint Set

The six mutable condition maps that `GameEngine.reset_game` initialises and
`_update_conditions` grows; grouped in one structure. -/

structure Conds where
  green_positions : List (Nat × Jamo)
  yellow_jamos : List Jamo
  yellow_excluded_positions : List (Jamo × List Nat)
  black_positions : List (Nat × List Jamo)
  pure_black_jamos : List Jamo
  jamo_exact_counts : List (Jamo × Nat)
deriving DecidableEq

/-- The empty Constraint Set set up by `reset_game`. -/
def emptyConds : Conds := ⟨[], [], [], [], [], []⟩

/-- One iteration of step 1 of `_update_conditions` at `(i, (jamo, result))`
of `enumerate(zip(jamos, pattern))`; a result character other than
G / Y / B falls through every branch. -/
def stage1_step (c : Conds) (x : Nat × Jamo × Char) : Conds :=
  let i := x.1
  let jamo := x.2.1
  let result := x.2.2
  if result = 'G' then
    { c with green_positions := alSet c.green_positions i jamo }
  else if result = 'Y' then
    { c with
      yellow_jamos := sInsert c.yellow_jamos jamo,
      yellow_excluded_positions :=
        alSet c.yellow_excluded_positions jamo
          (((alGet c.yellow_excluded_positions jamo).getD []) ++ [i]) }
  else if result = 'B' then
    { c with
      black_positions :=
        alSet c.black_positions i (sInsert ((alGet c.black_positions i).getD []) jamo) }
  else c

/-- Step 1 of `_update_conditions`: the `for i, (jamo, result) in
enumerate(zip(jamos, pattern))` loop, carrying the running index. -/
def stage1 : Nat → List (Jamo × Char) → Conds → Conds
  | _, [], c => c
  | i, p :: rest, c => stage1 (i + 1) rest (stage1_step c (i, p))

/-- How many positions of this turn carry atom `j` with result `r`
(the per-jamo G/Y/B tally of step 2 of `_update_conditions`). -/
def turn_counts (pairs : List (Jamo × Char)) (j : Jamo) (r : Char) : Nat :=
  pairs.countP fun p => decide (p.1 = j) && decide (p.2 = r)

/-- The distinct atoms of the guess in first-occurrence order: the iteration
order of the `jamo_results` dict built in step 2. -/
def dedup_first (l : List Jamo) : List Jamo :=
  l.foldl (fun acc a => if a ∈ acc then acc else acc ++ [a]) []

/-- Step 3 of `_update_conditions` for one distinct atom `j` of the turn. -/
def stage3_step (pairs : List (Jamo × Char)) (c : Conds) (j : Jamo) : Conds :=
  let g_count := turn_counts pairs j 'G'
  let y_count := turn_counts pairs j 'Y'
  let b_count := turn_counts pairs j 'B'
  if y_count > 0 ∨ g_count > 0 then
    if b_count > 0 then
      { c with jamo_exact_counts := alSet c.jamo_exact_counts j (g_count + y_count) }
    else
      match alGet c.jamo_exact_counts j with
      | some e =>
        { c with jamo_exact_counts := alSet c.jamo_exact_counts j (max e (g_count + y_count)) }
      | none => c
  else if b_count > 0 then
    { c with pure_black_jamos := sInsert c.pure_black_jamos j }
  else c

/-- Step 3 of `_update_conditions`: the loop over `jamo_results.items()`. -/
def stage3 (atoms : List Jamo) (pairs : List (Jamo × Char)) (c : Conds) : Conds :=
  atoms.foldl (stage3_step pairs) c

/-- Does every zipped result character belong to the feedback alphabet?
When some does not, step 2 of `_update_conditions`
(`jamo_results[jamo][result] += 1`) raises KeyError at that character. -/
def valid_pattern (pairs : List (Jamo × Char)) : Bool :=
  pairs.all fun p => decide (p.2 = 'G') || decide (p.2 = 'Y') || decide (p.2 = 'B')

/-- `GameEngine._update_conditions`.  Returns the Constraint Set together
with `true` when the update ran to completion and `false` when step 2 raised
KeyError on a result character outside G/Y/B; in that case step 1 has already
mutated the maps (the dicts are updated in place) and steps 2-3 have not. -/
def update_conditions (jamos : List Jamo) (pattern : List Char) (c : Conds) : Conds × Bool :=
  let pairs := jamos.zip pattern
  let c1 := stage1 0 pairs c
  if valid_pattern pairs then
    (stage3 (dedup_first (pairs.map Prod.fst)) pairs c1, true)
  else
    (c1, false)

/-! ## game_engine.py : candidate filtering -/

/-- One row of `WordDatabase.get_words_by_length`: the `word` column and the
`jamos` column (read back as a list of characters by `_find_candidates`). -/
structure WordRec where
  word : String
  jamos : List Jamo
deriving DecidableEq

/-- `GameEngine._check_word_conditions`: a candidate atom sequence passes iff
none of the six early-return checks fires. -/
def check_word_conditions (c : Conds) (jamos_list : List Jamo) : Bool :=
  -- 1. green: fail if `pos >= len(jamos_list) or jamos_list[pos] != jamo`
  (c.green_positions.all fun p =>
    decide (p.1 < jamos_list.length) && decide (jamos_list.getD p.1 'ㅏ' = p.2)) &&
  -- 2. black positions: fail if `pos < len(jamos_list) and jamos_list[pos] in excluded`
  (c.black_positions.all fun p =>
    !(decide (p.1 < jamos_list.length) && decide (jamos_list.getD p.1 'ㅏ' ∈ p.2))) &&
  -- 3. pure black: fail if `black_jamo in jamos_list`
  (c.pure_black_jamos.all fun j => !(decide (j ∈ jamos_list))) &&
  -- 4. yellow: fail if `yellow_jamo not in jamos_list`
  (c.yellow_jamos.all fun j => decide (j ∈ jamos_list)) &&
  -- 5. yellow excluded positions: fail if `pos < len and jamos_list[pos] == yellow_jamo`
  (c.yellow_excluded_positions.all fun p =>
    p.2.all fun pos => !(decide (pos < jamos_list.length) && decide (jamos_list.getD pos 'ㅏ' = p.1))) &&
  -- 6. exact counts: fail if `jamo_counts[jamo] != exact_count`
  (c.jamo_exact_counts.all fun p => decide (jamos_list.count p.1 = p.2))

/-- The six checks of `_check_word_conditions` evaluated in the reverse
order (6, 5, 4, 3, 2, 1); used to state that the evaluation order of the
checks does not affect the boolean result. -/
def check_word_conditions_rev (c : Conds) (jamos_list : List Jamo) : Bool :=
  (c.jamo_exact_counts.all fun p => decide (jamos_list.count p.1 = p.2)) &&
  (c.yellow_excluded_positions.all fun p =>
    p.2.all fun pos => !(decide (pos < jamos_list.length) && decide (jamos_list.getD pos 'ㅏ' = p.1))) &&
  (c.yellow_jamos.all fun j => decide (j ∈ jamos_list)) &&
  (c.pure_black_jamos.all fun j => !(decide (j ∈ jamos_list))) &&
  (c.black_positions.all fun p =>
    !(decide (p.1 < jamos_list.length) && decide (jamos_list.getD p.1 'ㅏ' ∈ p.2))) &&
  (c.green_positions.all fun p =>
    decide (p.1 < jamos_list.length) && decide (jamos_list.getD p.1 'ㅏ' = p.2))

/-- `GameEngine._find_candidates`: filter the primary rows of the session's
word length; only when that yields nothing and a fallback database is
configured, filter the fallback rows instead.  `db n` models
`WordDatabase.get_words_by_length(n)`. -/
def find_candidates (db : Nat → List WordRec) (fb : Option (Nat → List WordRec))
    (n : Nat) (c : Conds) : List String :=
  let primary := ((db n).filter fun w => check_word_conditions c w.jamos).map WordRec.word
  match primary, fb with
  | [], some fbdb => ((fbdb n).filter fun w => check_word_conditions c w.jamos).map WordRec.word
  | p, _ => p

/-! ## game_engine.py : session state and add_turn -/

/-- One entry of `self.turns` (`turn_info` in `add_turn`). -/
structure Turn where
  turn : Nat
  word : String
  jamos : List Jamo
  pattern : String
deriving DecidableEq

/-- The per-session mutable state of `GameEngine`: the turn history, the
inferred word length and the Constraint Set. -/
structure EngineState where
  turns : List Turn
  word_length : Option Nat
  conds : Conds
deriving DecidableEq

/-- `GameEngine.reset_game`. -/
def reset_game : EngineState := ⟨[], none, emptyConds⟩

/-- The part of `GameEngine.add_turn` that runs after the `word_length is
None / word_length != len(jamos)` dispatch: the pattern-length check, the
turn record, and `_update_conditions`.  The boolean is `false` when an
exception escaped (ValueError on the length check, KeyError inside
`_update_conditions`); the returned state carries the mutations that had
already happened at the raise point. -/
def add_turn_checked (s : EngineState) (guess_word : String) (jamos : List Jamo)
    (result_pattern : String) : EngineState × Bool :=
  if jamos.length ≠ result_pattern.length then (s, false)
  else
    let t : Turn := ⟨s.turns.length + 1, guess_word, jamos, result_pattern⟩
    let s2 := { s with turns := s.turns ++ [t] }
    let r := update_conditions jamos result_pattern.data s2.conds
    ({ s2 with conds := r.1 }, r.2)

/-- The state transition of `GameEngine.add_turn` (everything except the
candidate query).  Note that a first turn sets `self.word_length` before the
pattern-length check, so that assignment survives a pattern-length
ValueError. -/
def add_turn_state (s : EngineState) (guess_word : String) (result_pattern : String) :
    EngineState × Bool :=
  let jamos := decompose_hangul guess_word
  match s.word_length with
  | none =>
    add_turn_checked { s with word_length := some jamos.length } guess_word jamos result_pattern
  | some n =>
    if n ≠ jamos.length then (s, false)
    else add_turn_checked s guess_word jamos result_pattern

/-- `GameEngine.add_turn`: returns the mutated session state and
`some candidates` on success, `none` when an exception escaped. -/
def add_turn (db : Nat → List WordRec) (fb : Option (Nat → List WordRec))
    (s : EngineState) (guess_word : String) (result_pattern : String) :
    EngineState × Option (List String) :=
  let r := add_turn_state s guess_word result_pattern
  if r.2 then
    (r.1, some (find_candidates db fb (r.1.word_length.getD 0) r.1.conds))
  else
    (r.1, none)

/-- `GameEngine.get_current_candidates`.  Python's `if not self.word_length`
is also true for `word_length == 0`, hence the `some 0` row. -/
def get_current_candidates (db : Nat → List WordRec) (fb : Option (Nat → List WordRec))
    (s : EngineState) : List String :=
  match s.word_length with
  | none => []
  | some 0 => []
  | some n => find_candidates db fb n s.conds

/-- Modelled from the spec: `GameEngine` exposes no undo operation in the
source; section 4.4 of the specification defines it as removing the last
turn and rebuilding the whole Constraint Set by replaying all remaining
turns, in order, from empty state. -/
def undo (s : EngineState) : EngineState :=
  (s.turns.dropLast).foldl (fun st t => (add_turn_state st t.word t.pattern).1) reset_game

/-! ## Lemmas about the dict / set model -/

lemma alGet_alSet_self {α β : Type} [DecidableEq α] (m : List (α × β)) (k : α) (v : β) :
    alGet (alSet m k v) k = some v := by
  induction m with
  | nil => simp [alGet, alSet]
  | cons p rest ih =>
    by_cases h : p.1 = k
    · simp [alSet, alGet, h]
    · simp [alSet, alGet, h, ih]

lemma alGet_alSet_ne {α β : Type} [DecidableEq α] (m : List (α × β)) (k k' : α) (v : β)
    (h : k' ≠ k) : alGet (alSet m k v) k' = alGet m k' := by
  induction m with
  | nil =>
    simp only [alSet, alGet]
    rw [if_neg (fun hk => h hk.symm)]
  | cons p rest ih =>
    by_cases hp : p.1 = k
    · simp only [alSet, if_pos hp, alGet]
      rw [if_neg (fun hk => h hk.symm), hp, if_neg (fun hk => h hk.symm)]
    · simp only [alSet, if_neg hp, alGet]
      by_cases hp' : p.1 = k'
      · rw [if_pos hp', if_pos hp']
      · rw [if_neg hp', if_neg hp', ih]

lemma mem_sInsert {α : Type} [DecidableEq α] (s : List α) (a b : α) :
    a ∈ sInsert s b ↔ a ∈ s ∨ a = b := by
  unfold sInsert
  split
  · constructor
    · exact Or.inl
    · rintro (h | rfl) <;> [exact h; assumption]
  · simp

lemma subset_sInsert {α : Type} [DecidableEq α] (s : List α) (b : α) : s ⊆ sInsert s b := by
  intro a ha
  rw [mem_sInsert]
  exact Or.inl ha

/-- `m` grows into `m'`: every entry's value list only gains elements and no
entry disappears. -/
def submap {α β : Type} (m m' : List (α × List β)) : Prop :=
  ∀ e ∈ m, ∃ e' ∈ m', e'.1 = e.1 ∧ e.2 ⊆ e'.2

lemma submap_refl {α β : Type} (m : List (α × List β)) : submap m m :=
  fun e he => ⟨e, he, rfl, fun _ h => h⟩

lemma submap_trans {α β : Type} {m₁ m₂ m₃ : List (α × List β)}
    (h12 : submap m₁ m₂) (h23 : submap m₂ m₃) : submap m₁ m₃ := by
  intro e he
  obtain ⟨e', he', hk, hv⟩ := h12 e he
  obtain ⟨e'', he'', hk', hv'⟩ := h23 e' he'
  exact ⟨e'', he'', hk'.trans hk, hv.trans hv'⟩

lemma submap_alSet {α β : Type} [DecidableEq α] (m : List (α × List β)) (k : α) (v : List β)
    (hv : (alGet m k).getD [] ⊆ v) : submap m (alSet m k v) := by
  induction m with
  | nil => intro e he; simp at he
  | cons p rest ih =>
    intro e he
    by_cases hp : p.1 = k
    · simp only [alSet, if_pos hp]
      rcases List.mem_cons.mp he with rfl | hrest
      · refine ⟨(k, v), List.mem_cons_self _ _, hp.symm, ?_⟩
        simpa [alGet, hp] using hv
      · exact ⟨e, List.mem_cons_of_mem _ hrest, rfl, fun _ h => h⟩
    · simp only [alSet, if_neg hp]
      rcases List.mem_cons.mp he with rfl | hrest
      · exact ⟨e, List.mem_cons_self _ _, rfl, fun _ h => h⟩
      · have hv' : (alGet rest k).getD [] ⊆ v := by simpa [alGet, hp] using hv
        obtain ⟨e', he', hk, hsub⟩ := ih hv' e hrest
        exact ⟨e', List.mem_cons_of_mem _ he', hk, hsub⟩

/-! ## Lemmas about dedup_first -/

lemma dedup_first_aux_mem : ∀ (l acc : List Jamo) (x : Jamo),
    x ∈ l.foldl (fun acc a => if a ∈ acc then acc else acc ++ [a]) acc ↔ x ∈ acc ∨ x ∈ l := by
  intro l
  induction l with
  | nil => intro acc x; simp
  | cons a rest ih =>
    intro acc x
    rw [List.foldl_cons, ih]
    by_cases ha : a ∈ acc
    · rw [if_pos ha]
      constructor
      · rintro (h | h)
        · exact Or.inl h
        · exact Or.inr (List.mem_cons_of_mem _ h)
      · rintro (h | h)
        · exact Or.inl h
        · rcases List.mem_cons.mp h with rfl | h
          · exact Or.inl ha
          · exact Or.inr h
    · rw [if_neg ha]
      simp only [List.mem_append, List.mem_singleton, List.mem_cons]
      tauto

lemma dedup_first_aux_nodup : ∀ (l acc : List Jamo), acc.Nodup →
    (l.foldl (fun acc a => if a ∈ acc then acc else acc ++ [a]) acc).Nodup := by
  intro l
  induction l with
  | nil => intro acc h; exact h
  | cons a rest ih =>
    intro acc h
    rw [List.foldl_cons]
    by_cases ha : a ∈ acc
    · rw [if_pos ha]; exact ih acc h
    · rw [if_neg ha]
      exact ih (acc ++ [a]) (by simp [List.nodup_append, h, ha])

lemma mem_dedup_first (a : Jamo) (l : List Jamo) : a ∈ dedup_first l ↔ a ∈ l := by
  rw [dedup_first, dedup_first_aux_mem]
  simp

lemma nodup_dedup_first (l : List Jamo) : (dedup_first l).Nodup :=
  dedup_first_aux_nodup l [] (by simp)

lemma getD_some_iff (js : List Jamo) (i : Nat) (j : Jamo) :
    (i < js.length ∧ js.getD i 'ㅏ' = j) ↔ js.get? i = some j := by
  constructor
  · rintro ⟨h, hd⟩
    rw [List.get?_eq_get h]
    rw [List.getD_eq_getElem js 'ㅏ' h] at hd
    simpa [List.get_eq_getElem] using congrArg some hd
  · intro h
    obtain ⟨hlt, hget⟩ := List.get?_eq_some.mp h
    refine ⟨hlt, ?_⟩
    rw [List.getD_eq_getElem js 'ㅏ' hlt]
    simpa [List.get_eq_getElem] using hget

/-- The six conditions of the specification's `matches`, each stated the way
section 4.3 words it. -/
def matches_conds (c : Conds) (js : List Jamo) : Prop :=
  (∀ p ∈ c.green_positions, js.get? p.1 = some p.2) ∧
  (∀ p ∈ c.black_positions, ∀ j : Jamo, js.get? p.1 = some j → j ∉ p.2) ∧
  (∀ j ∈ c.pure_black_jamos, j ∉ js) ∧
  (∀ j ∈ c.yellow_jamos, j ∈ js) ∧
  (∀ p ∈ c.yellow_excluded_positions, ∀ pos ∈ p.2, js.get? pos ≠ some p.1) ∧
  (∀ p ∈ c.jamo_exact_counts, js.count p.1 = p.2)

lemma check_word_conditions_iff (c : Conds) (js : List Jamo) :
    check_word_conditions c js = true ↔ matches_conds c js := by
  unfold check_word_conditions matches_conds
  simp only [Bool.and_eq_true, List.all_eq_true, Bool.not_eq_true',
    Bool.and_eq_false_iff, decide_eq_true_eq, decide_eq_false_iff_not]
  constructor
  · rintro ⟨⟨⟨⟨⟨h1, h2⟩, h3⟩, h4⟩, h5⟩, h6⟩
    refine ⟨?_, ?_, ?_, ?_, ?_, h6⟩
    · intro p hp
      exact (getD_some_iff js p.1 p.2).mp (by simpa using h1 p hp)
    · intro p hp j hj hmem
      obtain ⟨hlt, hgd⟩ := (getD_some_iff js p.1 j).mpr hj
      rcases h2 p hp with h | h
      · exact h hlt
      · exact h (hgd ▸ hmem)
    · exact fun j hj => h3 j hj
    · exact fun j hj => h4 j hj
    · intro p hp pos hpos hsome
      obtain ⟨hlt, hgd⟩ := (getD_some_iff js pos p.1).mpr hsome
      rcases h5 p hp pos hpos with h | h
      · exact h hlt
      · exact h hgd
  · rintro ⟨h1, h2, h3, h4, h5, h6⟩
    refine ⟨⟨⟨⟨⟨?_, ?_⟩, ?_⟩, ?_⟩, ?_⟩, h6⟩
    · intro p hp
      have := (getD_some_iff js p.1 p.2).mpr (h1 p hp)
      simpa using this
    · intro p hp
      by_cases hlt : p.1 < js.length
      · right
        intro hmem
        exact h2 p hp _ ((getD_some_iff js p.1 _).mp ⟨hlt, rfl⟩) hmem
      · left; exact hlt
    · exact fun j hj => h3 j hj
    · exact fun j hj => h4 j hj
    · intro p hp pos hpos
      by_cases hlt : pos < js.length
      · right
        intro hgd
        exact h5 p hp pos hpos ((getD_some_iff js pos p.1).mp ⟨hlt, hgd⟩)
      · left; exact hlt

/-! ## Growth of the Constraint Set under _update_conditions -/

/-- The four condition maps that `_update_conditions` only ever extends,
whatever the feedback is. -/
def conds_grow (c c' : Conds) : Prop :=
  c.yellow_jamos ⊆ c'.yellow_jamos ∧
  submap c.yellow_excluded_positions c'.yellow_excluded_positions ∧
  submap c.black_positions c'.black_positions ∧
  c.pure_black_jamos ⊆ c'.pure_black_jamos

lemma conds_grow_refl (c : Conds) : conds_grow c c :=
  ⟨fun _ h => h, submap_refl _, submap_refl _, fun _ h => h⟩

lemma conds_grow_trans {c₁ c₂ c₃ : Conds} (h12 : conds_grow c₁ c₂) (h23 : conds_grow c₂ c₃) :
    conds_grow c₁ c₃ :=
  ⟨h12.1.trans h23.1, submap_trans h12.2.1 h23.2.1, submap_trans h12.2.2.1 h23.2.2.1,
   h12.2.2.2.trans h23.2.2.2⟩

lemma stage1_step_grow (c : Conds) (x : Nat × Jamo × Char) : conds_grow c (stage1_step c x) := by
  unfold stage1_step
  dsimp only
  split
  · exact ⟨fun _ h => h, submap_refl _, submap_refl _, fun _ h => h⟩
  split
  · exact ⟨subset_sInsert _ _, submap_alSet _ _ _ (List.subset_append_left _ _), submap_refl _, fun _ h => h⟩
  split
  · exact ⟨fun _ h => h, submap_refl _, submap_alSet _ _ _ (subset_sInsert _ _), fun _ h => h⟩
  · exact conds_grow_refl _

lemma stage1_grow : ∀ (ps : List (Jamo × Char)) (i : Nat) (c : Conds), conds_grow c (stage1 i ps c) := by
  intro ps
  induction ps with
  | nil => intro i c; exact conds_grow_refl _
  | cons p rest ih =>
    intro i c
    exact conds_grow_trans (stage1_step_grow c (i, p)) (ih (i + 1) _)

lemma stage3_step_grow (ps : List (Jamo × Char)) (c : Conds) (j : Jamo) :
    conds_grow c (stage3_step ps c j) := by
  unfold stage3_step
  dsimp only
  split
  · split
    · exact ⟨fun _ h => h, submap_refl _, submap_refl _, fun _ h => h⟩
    · split
      · exact ⟨fun _ h => h, submap_refl _, submap_refl _, fun _ h => h⟩
      · exact conds_grow_refl _
  · split
    · exact ⟨fun _ h => h, submap_refl _, submap_refl _, subset_sInsert _ _⟩
    · exact conds_grow_refl _

lemma stage3_grow : ∀ (atoms : List Jamo) (ps : List (Jamo × Char)) (c : Conds),
    conds_grow c (stage3 atoms ps c) := by
  intro atoms
  induction atoms with
  | nil => intro ps c; exact conds_grow_refl _
  | cons a rest ih =>
    intro ps c
    exact conds_grow_trans (stage3_step_grow ps c a) (ih ps _)

lemma update_conditions_grow (jamos : List Jamo) (pattern : List Char) (c : Conds) :
    conds_grow c (update_conditions jamos pattern c).1 := by
  unfold update_conditions
  dsimp only
  split
  · exact conds_grow_trans (stage1_grow _ 0 c) (stage3_grow _ _ _)
  · exact stage1_grow _ 0 c

/-! ## What each step of _update_conditions leaves untouched -/

lemma stage1_step_fields (c : Conds) (x : Nat × Jamo × Char) :
    (stage1_step c x).pure_black_jamos = c.pure_black_jamos ∧
    (stage1_step c x).jamo_exact_counts = c.jamo_exact_counts := by
  unfold stage1_step
  dsimp only
  split
  · exact ⟨rfl, rfl⟩
  split
  · exact ⟨rfl, rfl⟩
  split
  · exact ⟨rfl, rfl⟩
  · exact ⟨rfl, rfl⟩

lemma stage1_fields : ∀ (ps : List (Jamo × Char)) (i : Nat) (c : Conds),
    (stage1 i ps c).pure_black_jamos = c.pure_black_jamos ∧
    (stage1 i ps c).jamo_exact_counts = c.jamo_exact_counts := by
  intro ps
  induction ps with
  | nil => intro i c; exact ⟨rfl, rfl⟩
  | cons p rest ih =>
    intro i c
    obtain ⟨h1, h2⟩ := ih (i + 1) (stage1_step c (i, p))
    obtain ⟨g1, g2⟩ := stage1_step_fields c (i, p)
    exact ⟨h1.trans g1, h2.trans g2⟩

lemma stage3_step_fields (ps : List (Jamo × Char)) (c : Conds) (j : Jamo) :
    (stage3_step ps c j).green_positions = c.green_positions ∧
    (stage3_step ps c j).yellow_jamos = c.yellow_jamos ∧
    (stage3_step ps c j).yellow_excluded_positions = c.yellow_excluded_positions ∧
    (stage3_step ps c j).black_positions = c.black_positions := by
  unfold stage3_step
  dsimp only
  split
  · split
    · exact ⟨rfl, rfl, rfl, rfl⟩
    · split
      · exact ⟨rfl, rfl, rfl, rfl⟩
      · exact ⟨rfl, rfl, rfl, rfl⟩
  · split
    · exact ⟨rfl, rfl, rfl, rfl⟩
    · exact ⟨rfl, rfl, rfl, rfl⟩

lemma stage3_fields : ∀ (atoms : List Jamo) (ps : List (Jamo × Char)) (c : Conds),
    (stage3 atoms ps c).green_positions = c.green_positions ∧
    (stage3 atoms ps c).yellow_jamos = c.yellow_jamos ∧
    (stage3 atoms ps c).yellow_excluded_positions = c.yellow_excluded_positions ∧
    (stage3 atoms ps c).black_positions = c.black_positions := by
  intro atoms
  induction atoms with
  | nil => intro ps c; exact ⟨rfl, rfl, rfl, rfl⟩
  | cons a rest ih =>
    intro ps c
    obtain ⟨h1, h2, h3, h4⟩ := ih ps (stage3_step ps c a)
    obtain ⟨g1, g2, g3, g4⟩ := stage3_step_fields ps c a
    exact ⟨h1.trans g1, h2.trans g2, h3.trans g3, h4.trans g4⟩

/-! ## Membership characterisations -/

lemma turn_counts_eq_zero (ps : List (Jamo × Char)) (j : Jamo) (r : Char) :
    turn_counts ps j r = 0 ↔ ∀ p ∈ ps, ¬(p.1 = j ∧ p.2 = r) := by
  unfold turn_counts
  rw [List.countP_eq_zero]
  simp

lemma turn_counts_pos (ps : List (Jamo × Char)) (j : Jamo) (r : Char) :
    0 < turn_counts ps j r ↔ ∃ p ∈ ps, p.1 = j ∧ p.2 = r := by
  unfold turn_counts
  rw [List.countP_pos_iff]
  simp

lemma stage1_step_yellow_mem (c : Conds) (x : Nat × Jamo × Char) (j : Jamo) :
    j ∈ (stage1_step c x).yellow_jamos ↔
      j ∈ c.yellow_jamos ∨ (x.2.1 = j ∧ x.2.2 = 'Y') := by
  unfold stage1_step
  dsimp only
  by_cases hG : x.2.2 = 'G'
  · simp [hG]
  · by_cases hY : x.2.2 = 'Y'
    · rw [if_neg (by simp [hY]), if_pos hY]
      show j ∈ sInsert c.yellow_jamos x.2.1 ↔ _
      rw [mem_sInsert]
      constructor
      · rintro (h | rfl)
        · exact Or.inl h
        · exact Or.inr ⟨rfl, hY⟩
      · rintro (h | ⟨rfl, _⟩)
        · exact Or.inl h
        · exact Or.inr rfl
    · by_cases hB : x.2.2 = 'B' <;> simp [hG, hY, hB]

lemma stage1_yellow_mem : ∀ (ps : List (Jamo × Char)) (i : Nat) (c : Conds) (j : Jamo),
    j ∈ (stage1 i ps c).yellow_jamos ↔
      j ∈ c.yellow_jamos ∨ ∃ p ∈ ps, p.1 = j ∧ p.2 = 'Y' := by
  intro ps
  induction ps with
  | nil => intro i c j; simp [stage1]
  | cons p rest ih =>
    intro i c j
    rw [stage1, ih (i + 1), stage1_step_yellow_mem]
    simp only [List.exists_mem_cons_iff]
    tauto

/-! ## How step 3 of _update_conditions changes pure_black and exact counts -/

lemma stage3_step_pure_black_mem (ps : List (Jamo × Char)) (c : Conds) (a j : Jamo) :
    j ∈ (stage3_step ps c a).pure_black_jamos ↔
      j ∈ c.pure_black_jamos ∨
        (j = a ∧ turn_counts ps a 'Y' = 0 ∧ turn_counts ps a 'G' = 0 ∧
          0 < turn_counts ps a 'B') := by
  unfold stage3_step
  dsimp only
  split
  case isTrue h =>
    have hcontra : ¬(j = a ∧ turn_counts ps a 'Y' = 0 ∧ turn_counts ps a 'G' = 0 ∧
        0 < turn_counts ps a 'B') := by
      rintro ⟨_, hy, hg, _⟩
      rcases h with h | h <;> omega
    split
    · simp [hcontra]
    · split
      · simp [hcontra]
      · simp [hcontra]
  case isFalse h =>
    rw [not_or] at h
    obtain ⟨hy', hg'⟩ := h
    have hy : turn_counts ps a 'Y' = 0 := by omega
    have hg : turn_counts ps a 'G' = 0 := by omega
    split
    case isTrue hb =>
      show j ∈ sInsert c.pure_black_jamos a ↔ _
      rw [mem_sInsert]
      constructor
      · rintro (hm | rfl)
        · exact Or.inl hm
        · exact Or.inr ⟨rfl, hy, hg, hb⟩
      · rintro (hm | ⟨rfl, _, _, _⟩)
        · exact Or.inl hm
        · exact Or.inr rfl
    case isFalse hb =>
      constructor
      · exact Or.inl
      · rintro (hm | ⟨_, _, _, hb2⟩)
        · exact hm
        · exact absurd hb2 hb

lemma stage3_pure_black_mem : ∀ (atoms : List Jamo) (ps : List (Jamo × Char)) (c : Conds) (j : Jamo),
    j ∈ (stage3 atoms ps c).pure_black_jamos ↔
      j ∈ c.pure_black_jamos ∨
        (j ∈ atoms ∧ turn_counts ps j 'Y' = 0 ∧ turn_counts ps j 'G' = 0 ∧
          0 < turn_counts ps j 'B') := by
  intro atoms
  induction atoms with
  | nil => intro ps c j; simp [stage3]
  | cons a rest ih =>
    intro ps c j
    show j ∈ (stage3 rest ps (stage3_step ps c a)).pure_black_jamos ↔ _
    rw [ih, stage3_step_pure_black_mem]
    constructor
    · rintro ((hm | ⟨rfl, hy, hg, hb⟩) | ⟨hr, hy, hg, hb⟩)
      · exact Or.inl hm
      · exact Or.inr ⟨List.mem_cons_self _ _, hy, hg, hb⟩
      · exact Or.inr ⟨List.mem_cons_of_mem _ hr, hy, hg, hb⟩
    · rintro (hm | ⟨hmem, hy, hg, hb⟩)
      · exact Or.inl (Or.inl hm)
      · rcases List.mem_cons.mp hmem with rfl | hr
        · exact Or.inl (Or.inr ⟨rfl, hy, hg, hb⟩)
        · exact Or.inr ⟨hr, hy, hg, hb⟩

lemma stage3_step_exact_ne (ps : List (Jamo × Char)) (c : Conds) (a j : Jamo) (h : j ≠ a) :
    alGet (stage3_step ps c a).jamo_exact_counts j = alGet c.jamo_exact_counts j := by
  unfold stage3_step
  dsimp only
  split
  · split
    · exact alGet_alSet_ne _ _ _ _ h
    · split
      · exact alGet_alSet_ne _ _ _ _ h
      · rfl
  · split
    · rfl
    · rfl

lemma stage3_step_exact_zero (ps : List (Jamo × Char)) (c : Conds) (a j : Jamo)
    (hy : turn_counts ps j 'Y' = 0) (hg : turn_counts ps j 'G' = 0) :
    alGet (stage3_step ps c a).jamo_exact_counts j = alGet c.jamo_exact_counts j := by
  by_cases haj : j = a
  · subst haj
    unfold stage3_step
    dsimp only
    split
    next h => rcases h with h | h <;> omega
    next h => split <;> rfl
  · exact stage3_step_exact_ne ps c a j haj

lemma stage3_step_exact_set (ps : List (Jamo × Char)) (c : Conds) (j : Jamo)
    (hgy : 0 < turn_counts ps j 'G' + turn_counts ps j 'Y')
    (hb : 0 < turn_counts ps j 'B') :
    alGet (stage3_step ps c j).jamo_exact_counts j =
      some (turn_counts ps j 'G' + turn_counts ps j 'Y') := by
  unfold stage3_step
  dsimp only
  rw [if_pos (by omega : turn_counts ps j 'Y' > 0 ∨ turn_counts ps j 'G' > 0), if_pos hb]
  exact alGet_alSet_self _ _ _

lemma stage3_exact_not_mem : ∀ (atoms : List Jamo) (ps : List (Jamo × Char)) (c : Conds) (j : Jamo),
    j ∉ atoms →
    alGet (stage3 atoms ps c).jamo_exact_counts j = alGet c.jamo_exact_counts j := by
  intro atoms
  induction atoms with
  | nil => intro ps c j _; rfl
  | cons a rest ih =>
    intro ps c j hj
    show alGet (stage3 rest ps (stage3_step ps c a)).jamo_exact_counts j = _
    rw [ih ps _ j (fun h => hj (List.mem_cons_of_mem _ h)),
      stage3_step_exact_ne ps c a j (fun h => hj (h ▸ List.mem_cons_self _ _))]

lemma stage3_exact_zero : ∀ (atoms : List Jamo) (ps : List (Jamo × Char)) (c : Conds) (j : Jamo),
    turn_counts ps j 'Y' = 0 → turn_counts ps j 'G' = 0 →
    alGet (stage3 atoms ps c).jamo_exact_counts j = alGet c.jamo_exact_counts j := by
  intro atoms
  induction atoms with
  | nil => intro ps c j _ _; rfl
  | cons a rest ih =>
    intro ps c j hy hg
    show alGet (stage3 rest ps (stage3_step ps c a)).jamo_exact_counts j = _
    rw [ih ps _ j hy hg, stage3_step_exact_zero ps c a j hy hg]

lemma stage3_exact_set : ∀ (atoms : List Jamo) (ps : List (Jamo × Char)) (c : Conds) (j : Jamo),
    j ∈ atoms → atoms.Nodup →
    0 < turn_counts ps j 'G' + turn_counts ps j 'Y' →
    0 < turn_counts ps j 'B' →
    alGet (stage3 atoms ps c).jamo_exact_counts j =
      some (turn_counts ps j 'G' + turn_counts ps j 'Y') := by
  intro atoms
  induction atoms with
  | nil => intro ps c j hj; simp at hj
  | cons a rest ih =>
    intro ps c j hj hnd hgy hb
    show alGet (stage3 rest ps (stage3_step ps c a)).jamo_exact_counts j = _
    rcases List.mem_cons.mp hj with rfl | hr
    · rw [stage3_exact_not_mem rest ps _ j (List.Nodup.not_mem hnd)]
      exact stage3_step_exact_set ps c j hgy hb
    · exact ih ps _ j hr (List.Nodup.of_cons hnd) hgy hb

/-! ## _update_conditions at the top level -/

lemma update_conditions_valid (jamos : List Jamo) (pattern : List Char) (c : Conds)
    (hvalid : valid_pattern (jamos.zip pattern) = true) :
    update_conditions jamos pattern c =
      (stage3 (dedup_first ((jamos.zip pattern).map Prod.fst)) (jamos.zip pattern)
        (stage1 0 (jamos.zip pattern) c), true) := by
  unfold update_conditions
  rw [if_pos hvalid]

lemma update_conditions_invalid (jamos : List Jamo) (pattern : List Char) (c : Conds)
    (hvalid : valid_pattern (jamos.zip pattern) = false) :
    update_conditions jamos pattern c = (stage1 0 (jamos.zip pattern) c, false) := by
  unfold update_conditions
  rw [if_neg (by simp [hvalid])]

lemma map_fst_zip_eq (jamos : List Jamo) (pattern : List Char)
    (hlen : jamos.length = pattern.length) : (jamos.zip pattern).map Prod.fst = jamos :=
  List.map_fst_zip _ _ (le_of_eq hlen)

/-! ## The constraint order and antitonicity of the candidate check -/

/-- `c` is a weaker Constraint Set than `c'`: every constraint recorded in
`c` is still recorded in `c'`. -/
def conds_le (c c' : Conds) : Prop :=
  c.green_positions ⊆ c'.green_positions ∧
  c.yellow_jamos ⊆ c'.yellow_jamos ∧
  submap c.yellow_excluded_positions c'.yellow_excluded_positions ∧
  submap c.black_positions c'.black_positions ∧
  c.pure_black_jamos ⊆ c'.pure_black_jamos ∧
  c.jamo_exact_counts ⊆ c'.jamo_exact_counts

lemma matches_conds_antitone (c c' : Conds) (h : conds_le c c') (js : List Jamo)
    (hm : matches_conds c' js) : matches_conds c js := by
  obtain ⟨hG, hY, hYE, hB, hPB, hE⟩ := h
  obtain ⟨m1, m2, m3, m4, m5, m6⟩ := hm
  refine ⟨fun p hp => m1 p (hG hp), ?_, fun j hj => m3 j (hPB hj),
    fun j hj => m4 j (hY hj), ?_, fun p hp => m6 p (hE hp)⟩
  · intro p hp j hj hmem
    obtain ⟨e', he', hk, hsub⟩ := hB p hp
    exact m2 e' he' j (by rw [hk]; exact hj) (hsub hmem)
  · intro p hp pos hpos
    obtain ⟨e', he', hk, hsub⟩ := hYE p hp
    have hne := m5 e' he' pos (hsub hpos)
    rw [hk] at hne
    exact hne

lemma check_antitone (c c' : Conds) (h : conds_le c c') (js : List Jamo)
    (hc : check_word_conditions c' js = true) : check_word_conditions c js = true := by
  rw [check_word_conditions_iff] at hc ⊢
  exact matches_conds_antitone c c' h js hc

lemma update_conditions_le (jamos : List Jamo) (pattern : List Char) (c : Conds)
    (hG : c.green_positions ⊆ (update_conditions jamos pattern c).1.green_positions)
    (hE : c.jamo_exact_counts ⊆ (update_conditions jamos pattern c).1.jamo_exact_counts) :
    conds_le c (update_conditions jamos pattern c).1 := by
  obtain ⟨g1, g2, g3, g4⟩ := update_conditions_grow jamos pattern c
  exact ⟨hG, g1, g2, g3, g4, hE⟩

/-! ## _find_candidates without a fallback database -/

lemma find_candidates_none (db : Nat → List WordRec) (n : Nat) (c : Conds) :
    find_candidates db none n c =
      ((db n).filter fun w => check_word_conditions c w.jamos).map WordRec.word := by
  unfold find_candidates
  dsimp only
  set primary := ((db n).filter fun w => check_word_conditions c w.jamos).map WordRec.word with hp
  cases primary with
  | nil => rfl
  | cons a l => rfl

lemma find_candidates_none_le (db : Nat → List WordRec) (n : Nat) (c c' : Conds)
    (h : conds_le c c') :
    (find_candidates db none n c').length ≤ (find_candidates db none n c).length := by
  rw [find_candidates_none, find_candidates_none, List.length_map, List.length_map]
  rw [← List.countP_eq_length_filter, ← List.countP_eq_length_filter]
  exact List.countP_mono_left fun w hw hc => check_antitone c c' h w.jamos hc

/-! ## add_turn control flow -/

lemma add_turn_checked_ok (s : EngineState) (g : String) (jam : List Jamo) (p : String)
    (h : (add_turn_checked s g jam p).2 = true) :
    jam.length = p.length ∧ valid_pattern (jam.zip p.data) = true ∧
    (add_turn_checked s g jam p).1 =
      { turns := s.turns ++ [⟨s.turns.length + 1, g, jam, p⟩],
        word_length := s.word_length,
        conds := (update_conditions jam p.data s.conds).1 } := by
  unfold add_turn_checked at h ⊢
  by_cases hl : jam.length ≠ p.length
  · rw [if_pos hl] at h
    exact absurd h (by simp)
  · push_neg at hl
    rw [if_neg (fun hne => hne hl)] at h ⊢
    dsimp only at h ⊢
    have hv : valid_pattern (jam.zip p.data) = true := by
      by_cases hv : valid_pattern (jam.zip p.data) = true
      · exact hv
      · have hv' : valid_pattern (jam.zip p.data) = false := by
          revert hv
          cases valid_pattern (jam.zip p.data) <;> simp
        rw [update_conditions_invalid _ _ _ hv'] at h
        exact absurd h (by simp)
    exact ⟨hl, hv, rfl⟩

lemma add_turn_state_ok (s : EngineState) (g p : String)
    (h : (add_turn_state s g p).2 = true) :
    (decompose_hangul g).length = p.length ∧
    valid_pattern ((decompose_hangul g).zip p.data) = true ∧
    (s.word_length = none ∨ s.word_length = some (decompose_hangul g).length) ∧
    (add_turn_state s g p).1 =
      { turns := s.turns ++ [⟨s.turns.length + 1, g, decompose_hangul g, p⟩],
        word_length := some (decompose_hangul g).length,
        conds := (update_conditions (decompose_hangul g) p.data s.conds).1 } := by
  unfold add_turn_state at h ⊢
  cases hw : s.word_length with
  | none =>
    rw [hw] at h
    dsimp only at h ⊢
    obtain ⟨h1, h2, h3⟩ := add_turn_checked_ok _ g _ p h
    exact ⟨h1, h2, Or.inl rfl, by rw [h3]⟩
  | some n =>
    rw [hw] at h
    dsimp only at h ⊢
    by_cases hn : n ≠ (decompose_hangul g).length
    · rw [if_pos hn] at h
      exact absurd h (by simp)
    · push_neg at hn
      rw [if_neg (fun hne => hne hn)] at h ⊢
      obtain ⟨h1, h2, h3⟩ := add_turn_checked_ok s g _ p h
      refine ⟨h1, h2, Or.inr (by rw [hn]), ?_⟩
      rw [h3, hw, hn]

lemma add_turn_eq (db : Nat → List WordRec) (fb : Option (Nat → List WordRec))
    (s : EngineState) (g p : String) :
    add_turn db fb s g p =
      ((add_turn_state s g p).1,
        if (add_turn_state s g p).2 then
          some (find_candidates db fb ((add_turn_state s g p).1.word_length.getD 0)
            (add_turn_state s g p).1.conds)
        else none) := by
  unfold add_turn
  dsimp only
  cases h : (add_turn_state s g p).2 <;> simp [h]
lemma decompose_fold_nil : ∀ l : List Char, (∀ ch ∈ l, ¬('가' ≤ ch ∧ ch ≤ '힣')) →
    l.foldl (fun acc ch => acc.bind fun r => (decompose_char ch).map (r ++ ·)) (some []) =
      some [] := by
  intro l
  induction l with
  | nil => intro _; rfl
  | cons ch rest ih =>
    intro h
    have hch : decompose_char ch = some [] := by
      unfold decompose_char
      rw [if_neg (h ch (List.mem_cons_self _ _))]
    rw [List.foldl_cons]
    have hstep : ((some [] : Option (List Jamo)).bind fun r => (decompose_char ch).map (r ++ ·)) =
        some [] := by rw [hch]; rfl
    rw [hstep]
    exact ih fun ch' h' => h ch' (List.mem_cons_of_mem _ h')

/-- C9: `decompose_hangul "깎는"` is exactly the 8-atom sequence
[ㄱ,ㄱ,ㅏ,ㄱ,ㄱ,ㄴ,ㅡ,ㄴ] (doubled initial and doubled final ㄲ each expand to
two ㄱ atoms), and `decompose_hangul "앉다"` is [ㅇ,ㅏ,ㄴ,ㅈ,ㄷ,ㅏ] (the final
cluster ㄵ expands to the adjacent pair ㄴ,ㅈ). -/
theorem c9_decompose_examples :
    decompose_hangul_opt "깎는" = some ['ㄱ', 'ㄱ', 'ㅏ', 'ㄱ', 'ㄱ', 'ㄴ', 'ㅡ', 'ㄴ'] ∧
    decompose_hangul "깎는" = ['ㄱ', 'ㄱ', 'ㅏ', 'ㄱ', 'ㄱ', 'ㄴ', 'ㅡ', 'ㄴ'] ∧
    decompose_hangul_opt "앉다" = some ['ㅇ', 'ㅏ', 'ㄴ', 'ㅈ', 'ㄷ', 'ㅏ'] ∧
    decompose_hangul "앉다" = ['ㅇ', 'ㅏ', 'ㄴ', 'ㅈ', 'ㄷ', 'ㅏ'] := by decide

/-- C10: `decompose_hangul` is total: it never raises (the exception-aware
model never returns `none`), every character outside the Hangul syllable
range '가'..'힣' is silently skipped contributing no atoms, and an input with
no Hangul syllable character decomposes to the empty sequence. -/
theorem c10_decompose_total (word : String) :
    (decompose_hangul_opt word).isSome ∧
    (∀ ch : Char, ¬('가' ≤ ch ∧ ch ≤ '힣') → decompose_char ch = some []) ∧
    ((∀ ch ∈ word.data, ¬('가' ≤ ch ∧ ch ≤ '힣')) → decompose_hangul_opt word = some []) := by
  refine ⟨decompose_hangul_opt_isSome word, ?_, ?_⟩
  · intro ch hch
    unfold decompose_char
    rw [if_neg hch]
  · intro hall
    exact decompose_fold_nil word.data hall

theorem c10_decompose_total_witness :
    (decompose_hangul_opt "ab!").isSome ∧ decompose_hangul_opt "ab!" = some [] :=
  ⟨(c10_decompose_total "ab!").1, (c10_decompose_total "ab!").2.2 (by decide)⟩

/-- C3: the code does NOT surface a contradictory exact count.  Feeding the
guess 국군 scored YBBBBB resolves `exact_count[ㄱ] = 1`; feeding 국군 scored
YYGBBB afterwards implies `exact_count[ㄱ] = 2`, and `_update_conditions`
silently overwrites the previously resolved 1 with 2 while `add_turn`
completes normally (returning a candidate list, raising nothing). -/
theorem c3_silent_overwrite :
    let db : Nat → List WordRec := fun _ => []
    let s1 := (add_turn db none reset_game "국군" "YBBBBB").1
    let r2 := add_turn db none s1 "국군" "YYGBBB"
    alGet s1.conds.jamo_exact_counts 'ㄱ' = some 1 ∧
    alGet r2.1.conds.jamo_exact_counts 'ㄱ' = some 2 ∧
    r2.2 = some [] := by decide

/-- C4 fails as stated: after the reachable turn sequence
`add_turn("가","BB"); add_turn("가","YY")` (both calls succeed), the atom ㄱ
is simultaneously in `pure_black` and in `yellow_required`. -/
theorem c4_counterexample :
    let db : Nat → List WordRec := fun _ => []
    let r1 := add_turn db none reset_game "가" "BB"
    let r2 := add_turn db none r1.1 "가" "YY"
    r1.2.isSome ∧ r2.2.isSome ∧
    'ㄱ' ∈ r2.1.conds.pure_black_jamos ∧ 'ㄱ' ∈ r2.1.conds.yellow_jamos := by decide

/-- C5 fails as stated: over the database {나}, the turn 가/GG leaves 0
candidates, and the subsequent turn 나/GG (which overwrites the green
constraint at position 0) leaves 1 candidate — the count increased. -/
theorem c5_counterexample :
    let db : Nat → List WordRec := fun n => if n = 2 then [⟨"나", ['ㄴ', 'ㅏ']⟩] else []
    let r1 := add_turn db none reset_game "가" "GG"
    let r2 := add_turn db none r1.1 "나" "GG"
    r1.2 = some [] ∧ r2.2 = some ["나"] ∧
    ¬((r2.2.getD []).length ≤ (r1.2.getD []).length) := by decide

/-- C7 fails as stated: on a fresh session, `add_turn("가", "GGG")` raises
(atom count 2 differs from pattern length 3) but the session state is not
left unchanged — `word_length` has been fixed to 2 by the failed call. -/
theorem c7_counterexample :
    let r := add_turn (fun _ => []) none reset_game "가" "GGG"
    r.2 = none ∧ r.1 ≠ reset_game ∧ r.1.word_length = some 2 := by decide

/-- C8 fails as stated: `add_turn("가", "GX")` raises on the invalid result
character X, but only after the turn has been recorded and the step-1
constraint updates applied (`green_positions` already holds position 0). -/
theorem c8_counterexample :
    let r := add_turn (fun _ => []) none reset_game "가" "GX"
    r.2 = none ∧ r.1.turns ≠ [] ∧ r.1.conds.green_positions = [(0, 'ㄱ')] := by decide

lemma bool_and_reverse : ∀ a b c d e f : Bool,
    (f && e && d && c && b && a) = (a && b && c && d && e && f) := by decide

/-- C1: for every turn applied by `_update_conditions` and every atom of the
guess, tallying that atom's G/Y/B counts within the turn: if
Green+Yellow > 0 and Black > 0 then afterwards `exact_count[atom]` equals
Green+Yellow and the atom is not added to `pure_black`; if Black > 0 with
Green = Yellow = 0 the atom is added to `pure_black`. -/
theorem c1_exact_count_rule (jamos : List Jamo) (pattern : List Char) (c : Conds) (j : Jamo)
    (hlen : jamos.length = pattern.length) (hj : j ∈ jamos)
    (hvalid : valid_pattern (jamos.zip pattern) = true) :
    ((0 < turn_counts (jamos.zip pattern) j 'G' + turn_counts (jamos.zip pattern) j 'Y' ∧
      0 < turn_counts (jamos.zip pattern) j 'B') →
      alGet (update_conditions jamos pattern c).1.jamo_exact_counts j =
        some (turn_counts (jamos.zip pattern) j 'G' + turn_counts (jamos.zip pattern) j 'Y') ∧
      (j ∉ c.pure_black_jamos → j ∉ (update_conditions jamos pattern c).1.pure_black_jamos)) ∧
    ((0 < turn_counts (jamos.zip pattern) j 'B' ∧
      turn_counts (jamos.zip pattern) j 'G' = 0 ∧ turn_counts (jamos.zip pattern) j 'Y' = 0) →
      j ∈ (update_conditions jamos pattern c).1.pure_black_jamos) := by
  rw [update_conditions_valid _ _ _ hvalid]
  have hmapfst : (jamos.zip pattern).map Prod.fst = jamos := map_fst_zip_eq _ _ hlen
  constructor
  · rintro ⟨hgy, hb⟩
    constructor
    · apply stage3_exact_set
      · rw [mem_dedup_first, hmapfst]; exact hj
      · exact nodup_dedup_first _
      · exact hgy
      · exact hb
    · intro hnot hmem
      rw [stage3_pure_black_mem] at hmem
      rcases hmem with hmem | ⟨_, hy0, hg0, _⟩
      · rw [(stage1_fields (jamos.zip pattern) 0 c).1] at hmem
        exact hnot hmem
      · omega
  · rintro ⟨hb, hg0, hy0⟩
    rw [stage3_pure_black_mem]
    right
    refine ⟨?_, hy0, hg0, hb⟩
    rw [mem_dedup_first, hmapfst]
    exact hj

theorem c1_exact_count_rule_witness :
    alGet (update_conditions ['ㄱ', 'ㅏ', 'ㄱ'] ['Y', 'B', 'B'] emptyConds).1.jamo_exact_counts 'ㄱ' =
      some 1 ∧
    'ㄱ' ∉ (update_conditions ['ㄱ', 'ㅏ', 'ㄱ'] ['Y', 'B', 'B'] emptyConds).1.pure_black_jamos ∧
    'ㅏ' ∈ (update_conditions ['ㄱ', 'ㅏ', 'ㄱ'] ['Y', 'B', 'B'] emptyConds).1.pure_black_jamos := by
  have h1 := c1_exact_count_rule ['ㄱ', 'ㅏ', 'ㄱ'] ['Y', 'B', 'B'] emptyConds 'ㄱ'
    (by decide) (by decide) (by decide)
  have h2 := c1_exact_count_rule ['ㄱ', 'ㅏ', 'ㄱ'] ['Y', 'B', 'B'] emptyConds 'ㅏ'
    (by decide) (by decide) (by decide)
  obtain ⟨he, hp⟩ := h1.1 (by decide)
  exact ⟨he.trans (by decide), hp (by decide), h2.2 (by decide)⟩

/-- C2: `_check_word_conditions` returns true iff all six conditions hold
(green positions, per-position black exclusions, pure-black absence,
yellow-required presence, yellow-excluded positions, exact counts), and
evaluating the six checks in the reverse order yields the same boolean. -/
theorem c2_matches_iff (c : Conds) (js : List Jamo) :
    (check_word_conditions c js = true ↔ matches_conds c js) ∧
    check_word_conditions_rev c js = check_word_conditions c js := by
  refine ⟨check_word_conditions_iff c js, ?_⟩
  unfold check_word_conditions check_word_conditions_rev
  exact bool_and_reverse _ _ _ _ _ _

theorem c2_matches_iff_witness :
    check_word_conditions emptyConds ['ㄱ', 'ㅏ'] = true ∧
    check_word_conditions_rev emptyConds ['ㄱ', 'ㅏ'] =
      check_word_conditions emptyConds ['ㄱ', 'ㅏ'] :=
  ⟨(c2_matches_iff emptyConds ['ㄱ', 'ㅏ']).1.mpr
      (by exact ⟨by simp [emptyConds], by simp [emptyConds], by simp [emptyConds],
        by simp [emptyConds], by simp [emptyConds], by simp [emptyConds]⟩),
    (c2_matches_iff emptyConds ['ㄱ', 'ㅏ']).2⟩

/-! ## The consistency invariant of the Constraint Set -/

/-- The specification's consistency invariant: no atom is simultaneously in
`pure_black` and in `yellow_required` or the domain of `exact_count`. -/
def conds_consistent (c : Conds) : Prop :=
  ∀ j ∈ c.pure_black_jamos, j ∉ c.yellow_jamos ∧ alGet c.jamo_exact_counts j = none

/-- C4 (amended): a turn preserves the consistency invariant provided its
feedback does not contradict the accumulated constraints: no atom already in
`pure_black` receives Green or Yellow in the turn, and no atom already in
`yellow_required` or `exact_count` is scored Black-only in the turn.
(Without these provisos the code violates the invariant, see the
counterexample: nothing is ever removed from `pure_black`.) -/
theorem c4_invariant_preserved (jamos : List Jamo) (pattern : List Char) (c : Conds)
    (hinv : conds_consistent c)
    (h1 : ∀ j ∈ c.pure_black_jamos,
      turn_counts (jamos.zip pattern) j 'G' = 0 ∧ turn_counts (jamos.zip pattern) j 'Y' = 0)
    (h2 : ∀ j : Jamo, (j ∈ c.yellow_jamos ∨ (alGet c.jamo_exact_counts j).isSome) →
      ¬(turn_counts (jamos.zip pattern) j 'G' = 0 ∧ turn_counts (jamos.zip pattern) j 'Y' = 0 ∧
        0 < turn_counts (jamos.zip pattern) j 'B')) :
    conds_consistent (update_conditions jamos pattern c).1 := by
  intro j hj
  by_cases hv : valid_pattern (jamos.zip pattern) = true
  · rw [update_conditions_valid _ _ _ hv] at hj ⊢
    rw [stage3_pure_black_mem] at hj
    have hc1pb : (stage1 0 (jamos.zip pattern) c).pure_black_jamos = c.pure_black_jamos :=
      (stage1_fields _ 0 c).1
    have key : turn_counts (jamos.zip pattern) j 'Y' = 0 ∧
        turn_counts (jamos.zip pattern) j 'G' = 0 ∧
        j ∉ c.yellow_jamos ∧ alGet c.jamo_exact_counts j = none := by
      rcases hj with hj | ⟨_, hy0, hg0, hb⟩
      · rw [hc1pb] at hj
        obtain ⟨hg0, hy0⟩ := h1 j hj
        obtain ⟨hny, hne⟩ := hinv j hj
        exact ⟨hy0, hg0, hny, hne⟩
      · by_cases hyj : j ∈ c.yellow_jamos
        · exact absurd ⟨hg0, hy0, hb⟩ (h2 j (Or.inl hyj))
        · by_cases hej : (alGet c.jamo_exact_counts j).isSome
          · exact absurd ⟨hg0, hy0, hb⟩ (h2 j (Or.inr hej))
          · exact ⟨hy0, hg0, hyj, Option.not_isSome_iff_eq_none.mp hej⟩
    obtain ⟨hy0, hg0, hny, hne⟩ := key
    constructor
    · rw [(stage3_fields _ _ _).2.1, stage1_yellow_mem]
      rintro (h | ⟨p, hp, hpj, hpy⟩)
      · exact hny h
      · exact ((turn_counts_eq_zero _ _ _).mp hy0) p hp ⟨hpj, hpy⟩
    · rw [stage3_exact_zero _ _ _ _ hy0 hg0, (stage1_fields _ 0 c).2]
      exact hne
  · have hv' : valid_pattern (jamos.zip pattern) = false := by
      revert hv
      cases valid_pattern (jamos.zip pattern) <;> simp
    rw [update_conditions_invalid _ _ _ hv'] at hj ⊢
    rw [(stage1_fields _ 0 c).1] at hj
    obtain ⟨hg0, hy0⟩ := h1 j hj
    obtain ⟨hny, hne⟩ := hinv j hj
    constructor
    · rw [stage1_yellow_mem]
      rintro (h | ⟨p, hp, hpj, hpy⟩)
      · exact hny h
      · exact ((turn_counts_eq_zero _ _ _).mp hy0) p hp ⟨hpj, hpy⟩
    · rw [(stage1_fields _ 0 c).2]
      exact hne

theorem c4_invariant_preserved_witness :
    conds_consistent (update_conditions ['ㄱ', 'ㅏ'] ['Y', 'B'] emptyConds).1 :=
  c4_invariant_preserved ['ㄱ', 'ㅏ'] ['Y', 'B'] emptyConds
    (fun j hj => by simp [emptyConds] at hj)
    (fun j hj => by simp [emptyConds] at hj)
    (fun j hj => by rcases hj with hj | hj <;> simp [emptyConds, alGet] at hj)

/-! ## add_turn success facts -/

lemma add_turn_fst (db : Nat → List WordRec) (fb : Option (Nat → List WordRec))
    (s : EngineState) (g p : String) :
    (add_turn db fb s g p).1 = (add_turn_state s g p).1 := by
  rw [add_turn_eq]

lemma add_turn_ok_iff (db : Nat → List WordRec) (fb : Option (Nat → List WordRec))
    (s : EngineState) (g p : String) :
    (add_turn db fb s g p).2.isSome ↔ (add_turn_state s g p).2 = true := by
  rw [add_turn_eq]
  cases h : (add_turn_state s g p).2 <;> simp [h]

/-- C5 (amended): with no fallback database configured, and provided the new
turn leaves every previously recorded green-position entry and exact-count
entry in place (as happens whenever its feedback does not contradict them),
one more successful `add_turn` never increases the candidate count.
(Without the provisos the count can grow, see the counterexample.) -/
theorem c5_monotone (db : Nat → List WordRec) (s : EngineState) (g p : String) (n : Nat)
    (hwl : s.word_length = some n)
    (hok : (add_turn db none s g p).2.isSome)
    (hG : s.conds.green_positions ⊆ (add_turn db none s g p).1.conds.green_positions)
    (hE : s.conds.jamo_exact_counts ⊆ (add_turn db none s g p).1.conds.jamo_exact_counts) :
    ((add_turn db none s g p).2.getD []).length ≤
      (find_candidates db none n s.conds).length := by
  have hr : (add_turn_state s g p).2 = true := (add_turn_ok_iff db none s g p).mp hok
  obtain ⟨h1, h2, h3, h4⟩ := add_turn_state_ok s g p hr
  have hn : n = (decompose_hangul g).length := by
    rcases h3 with h3 | h3
    · rw [hwl] at h3; cases h3
    · rw [hwl] at h3; injection h3
  rw [add_turn_fst db none s g p, h4] at hG hE
  have hle : conds_le s.conds (update_conditions (decompose_hangul g) p.data s.conds).1 :=
    update_conditions_le _ _ _ hG hE
  have hcands : (add_turn db none s g p).2 =
      some (find_candidates db none (decompose_hangul g).length
        (update_conditions (decompose_hangul g) p.data s.conds).1) := by
    rw [add_turn_eq, if_pos hr, h4]
    rfl
  rw [hcands, Option.getD_some, hn]
  exact find_candidates_none_le db _ _ _ hle

theorem c5_monotone_witness :
    ((add_turn (fun m => if m = 2 then [⟨"나", ['ㄴ', 'ㅏ']⟩, ⟨"가", ['ㄱ', 'ㅏ']⟩] else [])
        none ⟨[], some 2, emptyConds⟩ "가" "GG").2.getD []).length ≤
      (find_candidates (fun m => if m = 2 then [⟨"나", ['ㄴ', 'ㅏ']⟩, ⟨"가", ['ㄱ', 'ㅏ']⟩] else [])
        none 2 emptyConds).length :=
  c5_monotone _ ⟨[], some 2, emptyConds⟩ "가" "GG" 2 rfl (by decide) (by decide) (by decide)

/-- C6: after two successful turns, the spec's undo (truncate the history by
one and replay it from empty state) yields exactly the session state — and
hence the candidate set — of a fresh session after the first turn alone. -/
theorem c6_undo_correct (db : Nat → List WordRec) (fb : Option (Nat → List WordRec))
    (wA pA wB pB : String)
    (hA : (add_turn db fb reset_game wA pA).2.isSome)
    (hB : (add_turn db fb (add_turn db fb reset_game wA pA).1 wB pB).2.isSome) :
    undo (add_turn db fb (add_turn db fb reset_game wA pA).1 wB pB).1 =
      (add_turn db fb reset_game wA pA).1 ∧
    get_current_candidates db fb
        (undo (add_turn db fb (add_turn db fb reset_game wA pA).1 wB pB).1) =
      get_current_candidates db fb (add_turn db fb reset_game wA pA).1 := by
  rw [add_turn_ok_iff] at hA
  simp only [add_turn_fst] at hB ⊢
  rw [add_turn_ok_iff] at hB
  obtain ⟨a1, a2, a3, a4⟩ := add_turn_state_ok reset_game wA pA hA
  obtain ⟨b1, b2, b3, b4⟩ := add_turn_state_ok (add_turn_state reset_game wA pA).1 wB pB hB
  have hturns : (add_turn_state reset_game wA pA).1.turns =
      [⟨1, wA, decompose_hangul wA, pA⟩] := by rw [a4]; rfl
  have hmain : undo (add_turn_state (add_turn_state reset_game wA pA).1 wB pB).1 =
      (add_turn_state reset_game wA pA).1 := by
    unfold undo
    rw [b4]
    dsimp only
    rw [List.dropLast_concat, hturns]
    dsimp only [List.foldl]
  exact ⟨hmain, by rw [hmain]⟩

theorem c6_undo_correct_witness :
    undo (add_turn (fun _ => []) none
        ((add_turn (fun _ => []) none reset_game "가" "GG").1) "나" "YY").1 =
      (add_turn (fun _ => []) none reset_game "가" "GG").1 :=
  (c6_undo_correct (fun _ => []) none "가" "GG" "나" "YY" (by decide) (by decide)).1

/-- C7 (amended): a rejected `add_turn` leaves the turn history and all
constraint maps untouched; the session state is fully unchanged when
`word_length` was already fixed, but on a first-turn pattern-length mismatch
`word_length` has already been set to the guess's atom count when the error
is raised. -/
theorem c7_reject_unchanged (db : Nat → List WordRec) (fb : Option (Nat → List WordRec))
    (s : EngineState) (g p : String) (n : Nat) :
    (s.word_length = some n → n ≠ (decompose_hangul g).length →
      add_turn db fb s g p = (s, none)) ∧
    (s.word_length = some n → n = (decompose_hangul g).length →
      (decompose_hangul g).length ≠ p.length →
      add_turn db fb s g p = (s, none)) ∧
    (s.word_length = none → (decompose_hangul g).length ≠ p.length →
      add_turn db fb s g p =
        ({ s with word_length := some (decompose_hangul g).length }, none)) := by
  refine ⟨?_, ?_, ?_⟩
  · intro hw hn
    have hstate : add_turn_state s g p = (s, false) := by
      unfold add_turn_state
      rw [hw]
      dsimp only
      rw [if_pos hn]
    rw [add_turn_eq, hstate]
    rfl
  · intro hw hn hl
    have hstate : add_turn_state s g p = (s, false) := by
      unfold add_turn_state
      rw [hw]
      dsimp only
      rw [if_neg (fun h => h hn)]
      unfold add_turn_checked
      rw [if_pos hl]
    rw [add_turn_eq, hstate]
    rfl
  · intro hw hl
    have hstate : add_turn_state s g p =
        ({ s with word_length := some (decompose_hangul g).length }, false) := by
      unfold add_turn_state
      rw [hw]
      dsimp only
      unfold add_turn_checked
      rw [if_pos hl]
    rw [add_turn_eq, hstate]
    rfl

theorem c7_reject_unchanged_witness :
    add_turn (fun _ => []) none ⟨[], some 3, emptyConds⟩ "가" "GG" =
      (⟨[], some 3, emptyConds⟩, none) ∧
    add_turn (fun _ => []) none ⟨[], some 2, emptyConds⟩ "가" "GGG" =
      (⟨[], some 2, emptyConds⟩, none) ∧
    add_turn (fun _ => []) none reset_game "가" "GGG" = (⟨[], some 2, emptyConds⟩, none) := by
  refine ⟨(c7_reject_unchanged (fun _ => []) none ⟨[], some 3, emptyConds⟩ "가" "GG" 3).1
      rfl (by decide),
    (c7_reject_unchanged (fun _ => []) none ⟨[], some 2, emptyConds⟩ "가" "GGG" 2).2.1
      rfl (by decide) (by decide), ?_⟩
  exact ((c7_reject_unchanged (fun _ => []) none reset_game "가" "GGG" 0).2.2
    rfl (by decide)).trans (by decide)

/-- C8 (amended): a result pattern containing a character outside G/Y/B does
make `add_turn` fail (KeyError in step 2 of `_update_conditions`), but not
before session state is mutated: the turn is already recorded and the step-1
positional updates applied.  The step-2/3 products — `exact_count` and
`pure_black` — are left unchanged. -/
theorem c8_invalid_pattern (db : Nat → List WordRec) (fb : Option (Nat → List WordRec))
    (s : EngineState) (g p : String)
    (hw : s.word_length = none ∨ s.word_length = some (decompose_hangul g).length)
    (hl : (decompose_hangul g).length = p.length)
    (hinv : valid_pattern ((decompose_hangul g).zip p.data) = false) :
    (add_turn db fb s g p).2 = none ∧
    (add_turn db fb s g p).1.turns =
      s.turns ++ [⟨s.turns.length + 1, g, decompose_hangul g, p⟩] ∧
    (add_turn db fb s g p).1.conds.jamo_exact_counts = s.conds.jamo_exact_counts ∧
    (add_turn db fb s g p).1.conds.pure_black_jamos = s.conds.pure_black_jamos := by
  have hstate : add_turn_state s g p =
      ({ turns := s.turns ++ [⟨s.turns.length + 1, g, decompose_hangul g, p⟩],
         word_length := some (decompose_hangul g).length,
         conds := stage1 0 ((decompose_hangul g).zip p.data) s.conds }, false) := by
    unfold add_turn_state
    rcases hw with hw | hw
    · rw [hw]
      dsimp only
      unfold add_turn_checked
      rw [if_neg (fun h => h hl)]
      dsimp only
      rw [update_conditions_invalid _ _ _ hinv]
    · rw [hw]
      dsimp only
      rw [if_neg (fun h => h rfl)]
      unfold add_turn_checked
      rw [if_neg (fun h => h hl)]
      dsimp only
      rw [update_conditions_invalid _ _ _ hinv, hw]
  rw [add_turn_eq, hstate]
  exact ⟨rfl, rfl, (stage1_fields _ 0 s.conds).2, (stage1_fields _ 0 s.conds).1⟩

theorem c8_invalid_pattern_witness :
    (add_turn (fun _ => []) none reset_game "가" "GX").2 = none ∧
    (add_turn (fun _ => []) none reset_game "가" "GX").1.turns =
      [⟨1, "가", ['ㄱ', 'ㅏ'], "GX"⟩] ∧
    (add_turn (fun _ => []) none reset_game "가" "GX").1.conds.jamo_exact_counts = [] ∧
    (add_turn (fun _ => []) none reset_game "가" "GX").1.conds.pure_black_jamos = [] := by
  obtain ⟨w1, w2, w3, w4⟩ := c8_invalid_pattern (fun _ => []) none reset_game "가" "GX"
    (Or.inl rfl) (by decide) (by decide)
  exact ⟨w1, w2.trans (by decide), w3, w4⟩
